import Mathlib

/-!
Formal model of the vex-sdk-sim SDK bridging layer.

The development shallowly embeds the Rust sources of the simulator
(`src/sdk/mod.rs`, `src/sdk/display.rs`) into Lean:

* pure functions become Lean functions on `Nat`/`Int` and lists;
* the guest framebuffer is a total function `Int → Int → RGB`;
* fallible code (Rust panics via `unwrap`/`unreachable!`/`todo!`, slice
  index panics, and recoverable `anyhow` errors) is modelled with
  `Option`/explicit outcome types, `none` standing for a panic;
* external crates whose code is not part of the repository (fimg's raster
  primitives, rusttype's glyph layout, the protocol channel, the
  controller backend) are modelled from the specification's words or kept
  abstract as explicit function parameters; each such definition carries a
  doc comment saying so.
-/

namespace VexSim

/-- An 8-bit-per-channel RGB color triple (fimg's `RGB` pixel type). -/
structure RGB where
  r : Nat
  g : Nat
  b : Nat
deriving DecidableEq, Repr

/-- Unpacking of a 32-bit packed color (fimg's `Pack::unpack`), modelled from
the spec, §3: the low three bytes are `r`, `g`, `b` in that order and the
fourth byte is ignored (byte 0 is red). -/
def RGB.unpack (col : Nat) : RGB :=
  ⟨col % 256, col / 256 % 256, col / 65536 % 256⟩

/-- Little-endian decoding of four bytes (`u32::from_le_bytes`). -/
def le32 (b0 b1 b2 b3 : Nat) : Nat :=
  b0 + 256 * b1 + 65536 * b2 + 16777216 * b3

/-- The simulated framebuffer, as a total function from (signed) pixel
coordinates to colors.  The Rust code stores a dense `480 × 272 × 3` byte
image; only coordinates inside `[0,480) × [0,272)` are ever backed by
memory, which the model captures by bounds-checking every write. -/
abbrev Fb := Int → Int → RGB

def DISPLAY_HEIGHT : Int := 272

def DISPLAY_WIDTH : Int := 480

def HEADER_HEIGHT : Int := 32

def BLACK : RGB := ⟨0, 0, 0⟩

def WHITE : RGB := ⟨255, 255, 255⟩

def HEADER_BG : RGB := ⟨0x00, 0x99, 0xCC⟩

/-- Coordinates that lie inside the framebuffer. -/
def inFb (a b : Int) : Prop :=
  0 ≤ a ∧ a < DISPLAY_WIDTH ∧ 0 ≤ b ∧ b < DISPLAY_HEIGHT

instance (a b : Int) : Decidable (inFb a b) := by
  unfold inFb; infer_instance

/-- A single pixel write with no bounds information: used only below a
bounds check, mirroring the `unsafe set_pixel` calls in the source. -/
def setPix (fb : Fb) (x y : Int) (c : RGB) : Fb :=
  fun a b => if a = x ∧ b = y then c else fb a b

/-- A bounds-checked pixel write: out-of-range writes are silently dropped
(`if x >= 0 && x < self.width() && ...` around `set_pixel` in the source,
and the spec's invariant that every framebuffer write is bounds-checked). -/
def writeChecked (fb : Fb) (x y : Int) (c : RGB) : Fb :=
  if inFb x y then setPix fb x y c else fb

/-- Modelled from the spec: fimg's `filled_box` is not code of this
repository.  §4.2 (filled rectangles fill interior and border) together
with scenario S1 (the header `filled_box((0,0), 480, 32)` covers exactly
rows `0..32`) fix a `width × height` filled box at `pos`, every write
bounds-checked (§3 invariants). -/
def filledBoxFb (fb : Fb) (pos : Nat × Nat) (width height : Nat) (c : RGB) : Fb :=
  fun a b =>
    if (pos.1 : Int) ≤ a ∧ a < (pos.1 : Int) + (width : Int)
        ∧ (pos.2 : Int) ≤ b ∧ b < (pos.2 : Int) + (height : Int)
        ∧ inFb a b
    then c else fb a b

/-- Modelled from the spec: fimg's `box` (stroked rectangle) is not code of
this repository.  §4.2: a stroked rectangle draws a one-pixel outline; every
write bounds-checked. -/
def boxFb (fb : Fb) (pos : Nat × Nat) (width height : Nat) (c : RGB) : Fb :=
  fun a b =>
    if ((pos.1 : Int) ≤ a ∧ a < (pos.1 : Int) + (width : Int)
        ∧ (pos.2 : Int) ≤ b ∧ b < (pos.2 : Int) + (height : Int)
        ∧ (a = (pos.1 : Int) ∨ a = (pos.1 : Int) + (width : Int) - 1
            ∨ b = (pos.2 : Int) ∨ b = (pos.2 : Int) + (height : Int) - 1))
        ∧ inFb a b
    then c else fb a b

/-- Modelled from the spec: fimg's `circle` (filled disc) is not code of this
repository.  §4.2: a filled circle is the standard rasterized disc of integer
radius about the center, interior including ring; every write bounds-checked. -/
def circleFb (fb : Fb) (center : Int × Int) (radius : Int) (c : RGB) : Fb :=
  fun a b =>
    if (a - center.1) ^ 2 + (b - center.2) ^ 2 ≤ radius ^ 2 ∧ inFb a b
    then c else fb a b

/-- Modelled from the spec: fimg's `border_circle` is not code of this
repository.  §4.2: a stroked circle draws a one-pixel ring; every write
bounds-checked. -/
def borderCircleFb (fb : Fb) (center : Int × Int) (radius : Int) (c : RGB) : Fb :=
  fun a b =>
    if (radius - 1) ^ 2 ≤ (a - center.1) ^ 2 + (b - center.2) ^ 2
        ∧ (a - center.1) ^ 2 + (b - center.2) ^ 2 ≤ radius ^ 2
        ∧ inFb a b
    then c else fb a b

/-- Rust's `i32 as u32` cast (two's complement wrap), used by
`Path::draw` on the rectangle corner coordinates. -/
def u32ofInt (x : Int) : Nat :=
  (x % 4294967296).toNat

/-- The tagged shape type of `display.rs` (`Path`). -/
inductive Path where
  | Rect (x1 y1 x2 y2 : Int)
  | Circle (cx cy radius : Int)
deriving DecidableEq, Repr

/-- Rust's `i32::clamp(lo, hi)`. -/
def clampI (x lo hi : Int) : Int :=
  max lo (min x hi)

/-- Model of `Path::normalize`: every coordinate (for circles, only the center) is
clamped to `[0, DISPLAY_WIDTH-1] × [0, DISPLAY_HEIGHT-1]`. -/
def Path.normalize : Path → Path
  | .Rect x1 y1 x2 y2 =>
      .Rect (clampI x1 0 (DISPLAY_WIDTH - 1)) (clampI y1 0 (DISPLAY_HEIGHT - 1))
        (clampI x2 0 (DISPLAY_WIDTH - 1)) (clampI y2 0 (DISPLAY_HEIGHT - 1))
  | .Circle cx cy radius =>
      .Circle (clampI cx 0 (DISPLAY_WIDTH - 1)) (clampI cy 0 (DISPLAY_HEIGHT - 1)) radius

/-- Model of `Path::draw`: rasterizes the shape onto the canvas.  The source computes
`width = (x2 - x1).try_into().unwrap()` (and likewise the height) into a
`u32`, which panics when the difference is negative; the panic is modelled
as `none`.  The fimg primitives it delegates to are spec-modelled above. -/
def Path.draw (p : Path) (canvas : Fb) (stroke : Bool) (color : RGB) : Option Fb :=
  match p with
  | .Rect x1 y1 x2 y2 =>
      if x2 - x1 < 0 ∨ y2 - y1 < 0 then none
      else
        let coords := (u32ofInt x1, u32ofInt y1)
        let width := (x2 - x1).toNat
        let height := (y2 - y1).toNat
        some (if stroke then boxFb canvas coords width height color
              else filledBoxFb canvas coords width height color)
  | .Circle cx cy radius =>
      some (if stroke then borderCircleFb canvas (cx, cy) radius color
            else circleFb canvas (cx, cy) radius color)

/-- The font variants of `display.rs` (`FontType`). -/
inductive FontType where
  | Small
  | Normal
  | Big
deriving DecidableEq, Repr

/-- Model of `FontType::y_offset`. -/
def FontType.y_offset : FontType → Int
  | .Small => -2
  | .Normal => -2
  | .Big => -1

/-- Model of `FontType::line_height`. -/
def FontType.line_height : FontType → Int
  | .Small => 13
  | .Normal => 2
  | .Big => 2

/-- Model of `FontType::backdrop_y_offset`. -/
def FontType.backdrop_y_offset : FontType → Int
  | .Small => 2
  | .Normal => 0
  | .Big => 0

/-- Model of `TextOptions` of `display.rs`. -/
structure TextOptions where
  transparent : Bool
  font_type : FontType
deriving DecidableEq, Repr

/-- The `#[derive(Default)]` value of `TextOptions`. -/
def TextOptions.default : TextOptions :=
  ⟨false, .Normal⟩

/-- Model of `TextLine(i32)` of `display.rs`. -/
structure TextLine where
  line : Int
deriving DecidableEq, Repr

/-- Model of `TextLine::coords`: line `n` maps to `(0, n*20 + HEADER_HEIGHT)`. -/
def TextLine.coords (t : TextLine) : Int × Int :=
  (0, t.line * 20 + HEADER_HEIGHT)

/-- A pixel bounding box of a laid-out glyph (rusttype's `Rect<i32>`). -/
structure GRect where
  minX : Int
  minY : Int
  maxX : Int
  maxY : Int
deriving DecidableEq, Repr

/-- A laid-out glyph.  rusttype's `PositionedGlyph` is not code of this
repository; the model keeps exactly what the simulator reads from it: the
optional pixel bounding box (`pixel_bounding_box()`, `None` for glyphs such
as spaces that rasterize no pixels).  How a font produces glyphs from text
is kept abstract as a `LayoutFn` parameter. -/
structure Glyph where
  bbox : Option GRect
deriving DecidableEq, Repr

/-- An abstract glyph-layout function standing for
`self.mono_font.layout(text, scale, point(0.0, ascent))` of rusttype.  The
scale is determined by the `FontType`, so the model passes the font type
through. -/
abbrev LayoutFn := String → FontType → List Glyph

/-- An abstract glyph-compositing function standing for the per-pixel
alpha-blending loop over `glyph.draw` in `write_text` (rusttype coverage and
`f32` blending are beyond an exact integer model).  It receives the canvas,
the foreground color, the draw coordinates and the glyph list, and returns
the new canvas. -/
abbrev ComposeFn := Fb → RGB → Int × Int → List Glyph → Fb

/-- Rust's `(FontType::x_spacing() * len as f32) as i32` for
`x_spacing = 1.1`, modelled as the exact rational floor `⌊11·len/10⌋`. -/
def xSpacingTimes (n : Nat) : Int :=
  ((11 * n) / 10 : Nat)

/-- Model of `size_of_layout` of `display.rs`.  The outer `Option` is the panic of the
two `pixel_bounding_box().unwrap()` calls (`none` = panic); the inner
`Option` is the function's own return value (`None` when there are no
glyphs). -/
def size_of_layout (glyphs : List Glyph) : Option (Option GRect) :=
  match glyphs.getLast? with
  | none => some none
  | some last_char =>
    match last_char.bbox, (glyphs.getD 0 ⟨none⟩).bbox with
    | some lastB, some firstB =>
        some (some ⟨firstB.minX, firstB.minY,
          lastB.maxX + xSpacingTimes glyphs.length, lastB.maxY⟩)
    | _, _ => none

/-- The subset of `ProgramOptions` the display reads: the default colors. -/
structure ProgramOptions where
  default_fg_color : RGB
  default_bg_color : RGB
deriving DecidableEq, Repr

/-- Model of `RenderMode` of `display.rs`; the `#[derive(Default)]` value is
`Immediate`. -/
inductive RenderMode where
  | Immediate
  | DoubleBuffered
deriving DecidableEq, Repr

/-- The `Display` state of `display.rs`.  `frames` logs the canvases written
by `save("display.png")`, most recent first (the file itself is overwritten
on every save); the bundled `mono_font` is abstracted into the `LayoutFn`
parameters of the text operations. -/
structure Display where
  foreground_color : RGB
  background_color : RGB
  canvas : Fb
  program_options : ProgramOptions
  render_mode : RenderMode
  text_layout_cache : Option (String × FontType × List Glyph)
  frames : List Fb

/-- Model of `Display::new`: the canvas is filled with the default background color,
colors take their defaults, render mode starts `Immediate`, cache empty. -/
def Display.new (po : ProgramOptions) : Display :=
  { foreground_color := po.default_fg_color
    background_color := po.default_bg_color
    canvas := fun _ _ => po.default_bg_color
    program_options := po
    render_mode := .Immediate
    text_layout_cache := none
    frames := [] }

/-- Model of `Display::draw_header`: `filled_box((0,0), DISPLAY_WIDTH, HEADER_HEIGHT,
HEADER_BG)`. -/
def Display.draw_header (st : Display) : Display :=
  { st with canvas := filledBoxFb st.canvas (0, 0) 480 32 HEADER_BG }

/-- Model of `Display::render(explicitly_requested)`: an explicit request latches
double-buffered mode; an implicit request in double-buffered mode is a
no-op; otherwise the header is drawn and the frame saved. -/
def Display.render (st : Display) (explicitly_requested : Bool) : Display :=
  if explicitly_requested then
    let st1 := Display.draw_header { st with render_mode := .DoubleBuffered }
    { st1 with frames := st1.canvas :: st1.frames }
  else if st.render_mode = .DoubleBuffered then st
  else
    let st1 := Display.draw_header st
    { st1 with frames := st1.canvas :: st1.frames }

/-- Model of `Display::disable_double_buffer`. -/
def Display.disable_double_buffer (st : Display) : Display :=
  { st with render_mode := .Immediate }

/-- Model of `Display::erase`: fills the whole canvas with the program's default
background color. -/
def Display.erase (st : Display) : Display :=
  { st with canvas :=
      filledBoxFb st.canvas (0, 0) 480 272 st.program_options.default_bg_color }

/-- Model of `Display::draw`: normalize, rasterize in the foreground color, then
implicit render.  `none` models the panic inside `Path::draw`. -/
def Display.draw (st : Display) (shape : Path) (stroke : Bool) : Option Display :=
  match shape.normalize.draw st.canvas stroke st.foreground_color with
  | none => none
  | some canvas2 => some (Display.render { st with canvas := canvas2 } false)

/-- The `vexDisplayForegroundColor` shim (address 0x640): stores the
unpacked color. -/
def Display.set_foreground_color (st : Display) (col : Nat) : Display :=
  { st with foreground_color := RGB.unpack col }

/-- The `vexDisplayBackgroundColor` shim (address 0x644). -/
def Display.set_background_color (st : Display) (col : Nat) : Display :=
  { st with background_color := RGB.unpack col }

/-- Model of `Display::take_cached_glyphs_for`: `Cell::take` empties the cache slot;
the taken entry's glyphs are returned iff its key matches. -/
def Display.take_cached_glyphs_for (st : Display) (text : String) (font_type : FontType) :
    Display × Option (List Glyph) :=
  match st.text_layout_cache with
  | none => (st, none)
  | some (cached_text, cached_font, glyphs) =>
    let st1 := { st with text_layout_cache := none }
    if text = cached_text ∧ font_type = cached_font then (st1, some glyphs)
    else (st1, none)

/-- Model of `Display::glyphs_for`: cached glyphs if the key matches, otherwise a
fresh layout via the abstract `layoutFn`. -/
def Display.glyphs_for (st : Display) (layoutFn : LayoutFn) (text : String)
    (font_type : FontType) : Display × List Glyph :=
  match st.take_cached_glyphs_for text font_type with
  | (st1, some glyphs) => (st1, glyphs)
  | (st1, none) => (st1, layoutFn text font_type)

/-- Model of `Display::calculate_text_background`.  The outer `Option` is the panic
inside `size_of_layout`; the inner `Option` is the `?` on its `None`
result. -/
def calculate_text_background (glyphs : List Glyph) (coords : Int × Int)
    (font_size : FontType) : Option (Option Path) :=
  match size_of_layout glyphs with
  | none => none
  | some none => some none
  | some (some size) =>
      some (some (Path.normalize (.Rect
        (size.minX + coords.1 - 1)
        (coords.2 + font_size.backdrop_y_offset)
        (size.maxX + coords.1 + 1)
        (coords.2 + font_size.backdrop_y_offset + font_size.line_height - 1))))

/-- The `if !options.transparent` block of `Display::write_text`: fill the
backdrop rectangle in the background color before compositing the glyphs.
`none` models the two panics of that block: the one inside `size_of_layout`
and the `.unwrap()` on a glyph run with no bounding box. -/
def Display.draw_text_backdrop (st1 : Display) (glyphs : List Glyph)
    (coords2 : Int × Int) (options : TextOptions) : Option Display :=
  if options.transparent then some st1
  else
    match calculate_text_background glyphs coords2 options.font_type with
    | none => none
    | some none => none
    | some (some backdrop) =>
      match backdrop.draw st1.canvas false st1.background_color with
      | none => none
      | some canvas2 => some { st1 with canvas := canvas2 }

/-- Model of `Display::write_text`.  Empty text returns immediately.  Otherwise the
vertical coordinate is adjusted by the font's `y_offset`, glyphs are taken
from the cache or laid out, an opaque call first fills the backdrop
rectangle in the background color, glyphs are composited (abstracted by
`composeFn`), the layout is (re-)cached, and an implicit render runs. -/
def Display.write_text (st : Display) (layoutFn : LayoutFn) (composeFn : ComposeFn)
    (text : String) (coords : Int × Int) (options : TextOptions) : Option Display :=
  if text = "" then some st
  else
    match Display.draw_text_backdrop (st.glyphs_for layoutFn text options.font_type).1
        (st.glyphs_for layoutFn text options.font_type).2
        (coords.1, coords.2 + options.font_type.y_offset) options with
    | none => none
    | some st2 =>
      some (Display.render
        { st2 with
          canvas := composeFn st2.canvas st.foreground_color
            (coords.1, coords.2 + options.font_type.y_offset)
            (st.glyphs_for layoutFn text options.font_type).2
          text_layout_cache := some (text, options.font_type,
            (st.glyphs_for layoutFn text options.font_type).2) }
        false)

/-- Model of `Display::calculate_string_size`: lays out (or recalls) the glyphs,
refreshes the cache with them, and returns the layout bounding box maximum
(`(0,0)` from `unwrap_or_default` when there are no glyphs).  `none` models
the panic inside `size_of_layout`. -/
def Display.calculate_string_size (st : Display) (layoutFn : LayoutFn) (text : String)
    (font_type : FontType) : Option (Display × (Int × Int)) :=
  match size_of_layout (st.glyphs_for layoutFn text font_type).2 with
  | none => none
  | some sz =>
      some ({ (st.glyphs_for layoutFn text font_type).1 with
          text_layout_cache := some (text, font_type,
            (st.glyphs_for layoutFn text font_type).2) },
        ((sz.getD ⟨0, 0, 0, 0⟩).maxX, (sz.getD ⟨0, 0, 0, 0⟩).maxY))

/-- The per-row pixel loop of `Display::draw_buffer`
(`for pixel in row.chunks(4)`): each full 4-byte chunk is decoded as a
little-endian packed color and written, bounds-checked, at the running `x`;
a final chunk shorter than 4 bytes makes `pixel[0..4]` panic (`none`). -/
def drawRowPixels (fb : Fb) (x y : Int) : List Nat → Option Fb
  | [] => some fb
  | b0 :: b1 :: b2 :: b3 :: rest =>
      drawRowPixels (writeChecked fb x y (RGB.unpack (le32 b0 b1 b2 b3))) (x + 1) y rest
  | _ => none

/-- The row loop of `Display::draw_buffer` (`for row in
buf.chunks(rowLen)`): taking `rowLen` bytes at a time, stopping at the first
row whose destination `y` exceeds `y2`.  `rowLen = 0` is the panic of
`chunks(0)` (`none`). -/
def drawBufRows (fb : Fb) (x1 y y2 : Int) (rowLen : Nat) (buf : List Nat) : Option Fb :=
  if h0 : rowLen = 0 then none
  else
    if hb : buf = [] then some fb
    else
      if y > y2 then some fb
      else
        match drawRowPixels fb x1 y (buf.take rowLen) with
        | none => none
        | some fb2 => drawBufRows fb2 x1 (y + 1) y2 rowLen (buf.drop rowLen)
termination_by buf.length
decreasing_by
  simp only [List.length_drop]
  have hl : 0 < buf.length := List.length_pos.mpr hb
  omega

/-- Model of `Display::draw_buffer` on the raw canvas: the buffer is segmented into
rows of `stride * 4` bytes (the multiplication performed in `u32`, hence the
wrap modulo `2^32`). -/
def drawBufferFb (fb : Fb) (buf : List Nat) (top_left bot_right : Int × Int)
    (stride : Nat) : Option Fb :=
  drawBufRows fb top_left.1 top_left.2 bot_right.2 (stride * 4 % 4294967296) buf

/-- Model of `Display::draw_buffer` (no implicit render in the source). -/
def Display.draw_buffer (st : Display) (buf : List Nat) (top_left bot_right : Int × Int)
    (stride : Nat) : Option Display :=
  match drawBufferFb st.canvas buf top_left bot_right stride with
  | none => none
  | some canvas2 => some { st with canvas := canvas2 }

/-- The color encoded little-endian at byte offset `o` of a buffer. -/
def decodeAt (buf : List Nat) (o : Nat) : RGB :=
  RGB.unpack (le32 (buf.getD o 0) (buf.getD (o + 1) 0) (buf.getD (o + 2) 0)
    (buf.getD (o + 3) 0))

/-- UTF-8 validity of a byte sequence, as `str::from_utf8` checks it
(RFC 3629: the byte-range table, surrogates and values above U+10FFFF
excluded). -/
def validUtf8 : List Nat → Bool
  | [] => true
  | b :: rest =>
    if b ≤ 0x7F then validUtf8 rest
    else if 0xC2 ≤ b ∧ b ≤ 0xDF then
      match rest with
      | c1 :: r => decide (0x80 ≤ c1 ∧ c1 ≤ 0xBF) && validUtf8 r
      | [] => false
    else if b = 0xE0 then
      match rest with
      | c1 :: c2 :: r =>
          decide (0xA0 ≤ c1 ∧ c1 ≤ 0xBF) && decide (0x80 ≤ c2 ∧ c2 ≤ 0xBF) && validUtf8 r
      | _ => false
    else if (0xE1 ≤ b ∧ b ≤ 0xEC) ∨ b = 0xEE ∨ b = 0xEF then
      match rest with
      | c1 :: c2 :: r =>
          decide (0x80 ≤ c1 ∧ c1 ≤ 0xBF) && decide (0x80 ≤ c2 ∧ c2 ≤ 0xBF) && validUtf8 r
      | _ => false
    else if b = 0xED then
      match rest with
      | c1 :: c2 :: r =>
          decide (0x80 ≤ c1 ∧ c1 ≤ 0x9F) && decide (0x80 ≤ c2 ∧ c2 ≤ 0xBF) && validUtf8 r
      | _ => false
    else if b = 0xF0 then
      match rest with
      | c1 :: c2 :: c3 :: r =>
          decide (0x90 ≤ c1 ∧ c1 ≤ 0xBF) && decide (0x80 ≤ c2 ∧ c2 ≤ 0xBF)
            && decide (0x80 ≤ c3 ∧ c3 ≤ 0xBF) && validUtf8 r
      | _ => false
    else if 0xF1 ≤ b ∧ b ≤ 0xF3 then
      match rest with
      | c1 :: c2 :: c3 :: r =>
          decide (0x80 ≤ c1 ∧ c1 ≤ 0xBF) && decide (0x80 ≤ c2 ∧ c2 ≤ 0xBF)
            && decide (0x80 ≤ c3 ∧ c3 ≤ 0xBF) && validUtf8 r
      | _ => false
    else if b = 0xF4 then
      match rest with
      | c1 :: c2 :: c3 :: r =>
          decide (0x80 ≤ c1 ∧ c1 ≤ 0x8F) && decide (0x80 ≤ c2 ∧ c2 ≤ 0xBF)
            && decide (0x80 ≤ c3 ∧ c3 ≤ 0xBF) && validUtf8 r
      | _ => false
    else false

/-- Model of `CStr::from_bytes_until_nul`: the bytes strictly before the first NUL,
or `none` when the sequence holds no NUL. -/
def bytes_until_nul : List Nat → Option (List Nat)
  | [] => none
  | b :: rest => if b = 0 then some [] else (bytes_until_nul rest).map (b :: ·)

/-- Model of `MemoryExt::read_c_string` of `mod.rs`, on guest memory modelled as a
byte list.  The source takes the slice `&data[offset..]`, which panics when
`offset` exceeds the memory size (outer `none`); then
`CStr::from_bytes_until_nul(bytes).ok()?` and `c_str.to_str().ok()` yield
the inner `Option`: the decoded bytes before the first NUL, or `None` when
there is no NUL or the bytes are not valid UTF-8. -/
def read_c_string (mem : List Nat) (offset : Nat) : Option (Option (List Nat)) :=
  if offset ≤ mem.length then
    some (match bytes_until_nul (mem.drop offset) with
          | none => none
          | some pre => if validUtf8 pre then some pre else none)
  else none

/-- Competition mode variants (`CompMode` of the protocol crate); only the
variants the spec names are modelled. -/
inductive CompMode where
  | Driver
  | Autonomous
deriving DecidableEq, Repr

/-- Model of `CompetitionMode` of `mod.rs`. -/
structure CompetitionMode where
  connected : Bool
  mode : CompMode
  is_competition : Bool
  enabled : Bool
deriving DecidableEq, Repr

/-- The `Default` impl of `CompetitionMode`: `enabled = true`, all the rest
false / `Driver`. -/
def CompetitionMode.default : CompetitionMode :=
  ⟨false, .Driver, false, true⟩

/-- Modelled from the spec: `controller.rs` is not under `src/`.  §4.3: the
input state holds two controller snapshots (primary, partner); a
`ControllerUpdate` protocol command overwrites a controller slot wholesale.
Controller payloads are abstracted as natural numbers. -/
structure Inputs where
  primary : Nat
  partner : Nat
deriving DecidableEq, Repr

/-- Modelled from the spec (§4.3): `set_controller(index, payload)`
overwrites the indexed controller slot wholesale. -/
def Inputs.set_controller (i : Inputs) (index : Nat) (payload : Nat) : Inputs :=
  if index = 0 then { i with primary := payload } else { i with partner := payload }

/-- The inbound commands of the protocol (`Command` of the protocol crate);
payloads that no modelled code reads are abstracted as natural numbers. -/
inductive Command where
  | Handshake
  | Touch (pos : Int × Int) (event : Nat)
  | ControllerUpdate (primary partner : Nat)
  | USD (root : Nat)
  | VEXLinkOpened (port : Nat) (mode : Nat)
  | VEXLinkClosed (port : Nat)
  | CompetitionMode (enabled connected : Bool) (mode : CompMode) (is_competition : Bool)
  | ConfigureDevice (port : Nat) (device : Nat)
  | AdiInput (port : Nat) (voltage : Nat)
  | StartExecution
  | SetBatteryCapacity (capacity : Nat)
  | SetTextMetrics (text : String) (options : TextOptions) (metrics : Nat)
deriving DecidableEq, Repr

/-- The outbound events of the protocol; only `Ready` is modelled
(telemetry events are not expanded by the spec). -/
inductive Event where
  | Ready
deriving DecidableEq, Repr

/-- The `SdkState` of `mod.rs`.  The `Protocol` field is modelled from the
spec (§4.6: a blocking receive channel and a non-blocking poll) as the list
`protocol_input` of commands still to arrive and the log `protocol_sent` of
events sent.  `exec_log` is a ghost field recording every command passed to
`execute_command`, in order, to make execution order observable; no modelled
code reads it.  The wasm `Module`, the `ProgramOptions` copy and the
`program_start` instant are omitted: no modelled operation reads them. -/
structure SdkState where
  display : Display
  inputs : Inputs
  competition_mode : CompetitionMode
  is_executing : Bool
  command_process_queue : List Command
  protocol_input : List Command
  protocol_sent : List Event
  exec_log : List Command

/-- The outcome of `execute_command`: a Rust panic (`unreachable!` on
`Handshake`, `todo!` on the unimplemented commands), a recoverable
`anyhow` error (`bail!`), or success.  The error outcome carries the state
as it is at the `bail!` point, since `&mut self` persists across an `Err`
return. -/
inductive ExecOut where
  | panic
  | err (s : SdkState)
  | ok (s : SdkState)

/-- Model of `SdkState::execute_command`. -/
def SdkState.execute_command (st0 : SdkState) (cmd : Command) : ExecOut :=
  let st := { st0 with exec_log := st0.exec_log ++ [cmd] }
  match cmd with
  | .Handshake => .panic
  | .Touch _ _ => .panic
  | .ControllerUpdate primary partner =>
      .ok { st with inputs := (st.inputs.set_controller 0 primary).set_controller 1 partner }
  | .USD _ => .panic
  | .VEXLinkOpened _ _ => .panic
  | .VEXLinkClosed _ => .panic
  | .CompetitionMode enabled connected mode is_competition =>
      .ok { st with competition_mode := ⟨connected, mode, is_competition, enabled⟩ }
  | .ConfigureDevice _ _ => .panic
  | .AdiInput _ _ => .panic
  | .StartExecution =>
      if st.is_executing then .err st
      else .ok { st with is_executing := true }
  | .SetBatteryCapacity _ => .panic
  | .SetTextMetrics _ _ _ => .ok st

/-- The outcome of an operation that may also block forever on the protocol
channel (modelled: the channel list is exhausted); the blocked outcome
carries the state at the blocking point. -/
inductive RecvOut where
  | blocked (s : SdkState)
  | panic
  | err (s : SdkState)
  | ok (s : SdkState)

/-- Conversion of an `execute_command` outcome into a receive outcome
(the `?` on `execute_command` in `recv_command`). -/
def liftExec : ExecOut → RecvOut
  | .panic => .panic
  | .err s => .err s
  | .ok s => .ok s

/-- Model of `SdkState::recv_command`: the front of the deferred queue if any,
otherwise a blocking receive from the protocol channel, then execute. -/
def SdkState.recv_command (st : SdkState) : RecvOut :=
  match st.command_process_queue with
  | c :: rest => liftExec (SdkState.execute_command { st with command_process_queue := rest } c)
  | [] =>
    match st.protocol_input with
    | c :: rest => liftExec (SdkState.execute_command { st with protocol_input := rest } c)
    | [] => .blocked st

/-- Inversion for `liftExec`: only a successful execution lifts to a
successful receive. -/
theorem liftExec_ok {e : ExecOut} {s : SdkState} (h : liftExec e = .ok s) :
    e = .ok s := by
  cases e <;> simp only [liftExec] at h <;> cases h <;> rfl

/-- Helper for termination: `execute_command` never touches the deferred
queue or the protocol channel. -/
theorem execute_command_queue_input (st : SdkState) (c : Command) (s : SdkState)
    (h : st.execute_command c = .ok s ∨ st.execute_command c = .err s) :
    s.command_process_queue = st.command_process_queue
      ∧ s.protocol_input = st.protocol_input := by
  rcases h with h | h <;> cases c <;>
    simp only [SdkState.execute_command] at h <;>
    (try split at h) <;> cases h <;> exact ⟨rfl, rfl⟩

/-- Helper for termination: a successful `recv_command` consumes exactly one
pending command. -/
theorem recv_command_measure (st : SdkState) (s : SdkState)
    (h : st.recv_command = .ok s) :
    s.command_process_queue.length + s.protocol_input.length + 1 =
      st.command_process_queue.length + st.protocol_input.length := by
  unfold SdkState.recv_command at h
  rcases hq : st.command_process_queue with _ | ⟨c, rest⟩ <;> simp only [hq] at h
  · rcases hi : st.protocol_input with _ | ⟨c, rest⟩ <;> simp only [hi] at h
    · cases h
    · have h2 := execute_command_queue_input _ _ _ (Or.inl (liftExec_ok h))
      simp at h2
      simp only [h2.1, h2.2, hi, List.length_cons, List.length_nil]
      omega
  · have h2 := execute_command_queue_input _ _ _ (Or.inl (liftExec_ok h))
    simp at h2
    simp only [h2.1, h2.2, hq, List.length_cons]
    omega

/-- The `while !self.is_executing { self.recv_command()?; }` loop of
`SdkState::setup`. -/
def SdkState.setupLoop (st : SdkState) : RecvOut :=
  if st.is_executing then .ok st
  else
    match h : st.recv_command with
    | .blocked s => .blocked s
    | .panic => .panic
    | .err s => .err s
    | .ok s => s.setupLoop
termination_by st.command_process_queue.length + st.protocol_input.length
decreasing_by
  have := recv_command_measure st s h
  omega

/-- Model of `SdkState::setup`: send `Ready`, then process commands until
`is_executing` is set. -/
def SdkState.setup (st : SdkState) : RecvOut :=
  SdkState.setupLoop { st with protocol_sent := st.protocol_sent ++ [.Ready] }

/-- Model of `SdkState::recv_all_commands`: drain the deferred queue, then the
currently available protocol commands (non-blocking poll), executing each;
stops as soon as nothing is immediately available. -/
def SdkState.recv_all_commands (st : SdkState) : ExecOut :=
  match hq : st.command_process_queue with
  | c :: rest =>
    match h : SdkState.execute_command { st with command_process_queue := rest } c with
    | .panic => .panic
    | .err s => .err s
    | .ok s => s.recv_all_commands
  | [] =>
    match hi : st.protocol_input with
    | c :: rest =>
      match h : SdkState.execute_command { st with protocol_input := rest } c with
      | .panic => .panic
      | .err s => .err s
      | .ok s => s.recv_all_commands
    | [] => .ok st
termination_by st.command_process_queue.length + st.protocol_input.length
decreasing_by
  · have h2 := execute_command_queue_input _ _ _ (Or.inl h)
    simp at h2
    simp only [h2.1, h2.2, hq, List.length_cons]
    omega
  · have h2 := execute_command_queue_input _ _ _ (Or.inl h)
    simp at h2
    simp only [h2.1, h2.2, hq, hi, List.length_cons]
    omega

/-- Model of `SdkState::wait_for_command`: receive blocking; a command satisfying the
predicate is executed (its result discarded: the source drops the `Result`)
and the loop ends; any other command is pushed onto the deferred queue. -/
def SdkState.wait_for_command (st : SdkState) (check : Command → Bool) : RecvOut :=
  match hin : st.protocol_input with
  | [] => .blocked st
  | c :: rest =>
    let st1 := { st with protocol_input := rest }
    if check c then
      match st1.execute_command c with
      | .panic => .panic
      | .err s => .ok s
      | .ok s => .ok s
    else
      SdkState.wait_for_command
        { st1 with command_process_queue := st1.command_process_queue ++ [c] } check
termination_by st.protocol_input.length
decreasing_by
  simp only [hin, List.length_cons]
  omega

/-- Model of `SdkState::run_tasks` (`vexTasksRun`): drain all available commands,
then refresh the inputs (the gamepad poll is outside the model and omitted:
the spec keeps the physical-gamepad backend an external collaborator). -/
def SdkState.run_tasks (st : SdkState) : ExecOut :=
  st.recv_all_commands

def JUMP_TABLE_START : Nat := 0x037FC000

/-- The guest resources `JumpTable::expose` mutates: the indirect function
table (a slot holds `some f`, `f` an abstract host-function handle, or is a
null `Ref::Func(None)` slot) and the guest linear memory as a total byte
function. -/
structure GuestStore where
  table : List (Option Nat)
  memory : Nat → Nat

/-- Model of `u32::to_le_bytes`. -/
def u32_le_bytes (k : Nat) : List Nat :=
  [k % 256, k / 256 % 256, k / 65536 % 256, k / 16777216 % 256]

/-- Model of `Memory::write(offset, bytes)`: the byte window starting at `offset` is
replaced. -/
def memWrite (mem : Nat → Nat) (offset : Nat) (bytes : List Nat) : Nat → Nat :=
  fun a => if offset ≤ a ∧ a < offset + bytes.length then bytes.getD (a - offset) 0 else mem a

/-- One iteration of the loop in `JumpTable::expose`: for the entry
`(address, method)` at enumeration index `off`, the host function is stored
at table slot `base + off` and the slot index is written little-endian at
`JUMP_TABLE_START + address`. -/
def exposeEntry (base off : Nat) (entry : Nat × Nat) (g : GuestStore) : GuestStore :=
  let sdk_index := base + off
  { table := g.table.set sdk_index (some entry.2)
    memory := memWrite g.memory (JUMP_TABLE_START + entry.1) (u32_le_bytes sdk_index) }

/-- The enumerated loop of `JumpTable::expose`
(`for (offset, (address, method)) in self.api.into_iter().enumerate()`). -/
def exposeGo (base : Nat) : Nat → List (Nat × Nat) → GuestStore → GuestStore
  | _, [], g => g
  | off, e :: rest, g => exposeGo base (off + 1) rest (exposeEntry base off e g)

/-- Model of `JumpTable::expose`.  The builder's `HashMap` is modelled as its
iteration order: a list of `(address, method)` pairs with distinct
addresses (the map's keys).  `sdk_base` is the table size before the grow;
the table is grown by one null slot per entry and each entry installed. -/
def JumpTable.expose (api : List (Nat × Nat)) (g : GuestStore) : GuestStore :=
  let sdk_base := g.table.length
  exposeGo sdk_base 0 api { g with table := g.table ++ List.replicate api.length none }

/-! Helper lemmas shared by the claim theorems. -/

theorem render_false_mode (st : Display) :
    (st.render false).render_mode = st.render_mode := by
  unfold Display.render
  simp only [Bool.false_eq_true, if_false]
  split <;> rfl

theorem render_false_of_double_buffered (st : Display)
    (h : st.render_mode = .DoubleBuffered) : st.render false = st := by
  unfold Display.render
  simp [h]

theorem filledBoxFb_out (fb : Fb) (p : Nat × Nat) (w h : Nat) (c : RGB) (a b : Int)
    (hout : ¬inFb a b) : filledBoxFb fb p w h c a b = fb a b := by
  unfold filledBoxFb
  split
  · next hc => exact absurd hc.2.2.2.2 hout
  · rfl

theorem boxFb_out (fb : Fb) (p : Nat × Nat) (w h : Nat) (c : RGB) (a b : Int)
    (hout : ¬inFb a b) : boxFb fb p w h c a b = fb a b := by
  unfold boxFb
  split
  · next hc => exact absurd hc.2 hout
  · rfl

theorem circleFb_out (fb : Fb) (p : Int × Int) (r : Int) (c : RGB) (a b : Int)
    (hout : ¬inFb a b) : circleFb fb p r c a b = fb a b := by
  unfold circleFb
  split
  · next hc => exact absurd hc.2 hout
  · rfl

theorem borderCircleFb_out (fb : Fb) (p : Int × Int) (r : Int) (c : RGB) (a b : Int)
    (hout : ¬inFb a b) : borderCircleFb fb p r c a b = fb a b := by
  unfold borderCircleFb
  split
  · next hc => exact absurd hc.2.2 hout
  · rfl

theorem render_canvas_out (st : Display) (e : Bool) (a b : Int) (hout : ¬inFb a b) :
    (st.render e).canvas a b = st.canvas a b := by
  unfold Display.render
  split
  · exact filledBoxFb_out _ _ _ _ _ _ _ hout
  · split
    · rfl
    · exact filledBoxFb_out _ _ _ _ _ _ _ hout

theorem path_draw_canvas_out (p : Path) (canvas : Fb) (stroke : Bool) (color : RGB)
    (c2 : Fb) (h : p.draw canvas stroke color = some c2) (a b : Int)
    (hout : ¬inFb a b) : c2 a b = canvas a b := by
  cases p with
  | Rect x1 y1 x2 y2 =>
    simp only [Path.draw] at h
    by_cases hneg : x2 - x1 < 0 ∨ y2 - y1 < 0
    · rw [if_pos hneg] at h
      cases h
    · rw [if_neg hneg] at h
      simp only [Option.some.injEq] at h
      subst h
      cases stroke
      · exact filledBoxFb_out _ _ _ _ _ _ _ hout
      · exact boxFb_out _ _ _ _ _ _ _ hout
  | Circle cx cy r =>
    simp only [Path.draw, Option.some.injEq] at h
    subst h
    cases stroke
    · exact circleFb_out _ _ _ _ _ _ hout
    · exact borderCircleFb_out _ _ _ _ _ _ hout

/-- The display returned by `glyphs_for` is the input display with the
cache slot emptied (`Cell::take`): when the cache was already empty this is
the input display itself. -/
theorem glyphs_for_fst (st : Display) (lf : LayoutFn) (t : String) (f : FontType) :
    (st.glyphs_for lf t f).1 = { st with text_layout_cache := none } := by
  obtain ⟨c1, c2, c3, c4, c5, c6, c7⟩ := st
  unfold Display.glyphs_for Display.take_cached_glyphs_for
  rcases c6 with _ | ⟨ct, cf2, g⟩
  · rfl
  · dsimp only
    by_cases hk : t = ct ∧ f = cf2
    · rw [if_pos hk]
    · rw [if_neg hk]

/-- The backdrop step changes at most the canvas. -/
theorem draw_text_backdrop_fields (st1 : Display) (glyphs : List Glyph)
    (coords2 : Int × Int) (options : TextOptions) (st2 : Display)
    (h : Display.draw_text_backdrop st1 glyphs coords2 options = some st2) :
    st2.render_mode = st1.render_mode
      ∧ st2.text_layout_cache = st1.text_layout_cache
      ∧ st2.foreground_color = st1.foreground_color
      ∧ st2.background_color = st1.background_color
      ∧ st2.frames = st1.frames := by
  unfold Display.draw_text_backdrop at h
  split at h
  · cases h
    exact ⟨rfl, rfl, rfl, rfl, rfl⟩
  · split at h
    · cases h
    · cases h
    · split at h
      · cases h
      · cases h
        exact ⟨rfl, rfl, rfl, rfl, rfl⟩

/-- C9: for every coordinate pair and every `TextOptions` value, `write_text`
with the empty string is a complete no-op: the display state (framebuffer,
colors, render mode, glyph cache, saved frames) is returned unchanged, so no
render and no PNG write happens. -/
theorem write_text_empty_noop (st : Display) (layoutFn : LayoutFn)
    (composeFn : ComposeFn) (coords : Int × Int) (options : TextOptions) :
    st.write_text layoutFn composeFn "" coords options = some st := rfl

/-- C2: the render mode starts `Immediate`; every `render(true)` call sets it
to `DoubleBuffered`, draws the header bar and saves a frame; `render(false)`
while double-buffered changes nothing, and `render(false)` never changes the
mode; `disable_double_buffer` resets the mode to `Immediate`; no other
display operation (color setters, erase, shape draw, pixel blit, text write,
string measurement) changes the render mode. -/
theorem render_mode_transitions :
    (∀ po, (Display.new po).render_mode = .Immediate)
    ∧ (∀ st : Display, (st.render true).render_mode = .DoubleBuffered)
    ∧ (∀ st : Display, (st.render true).frames.length = st.frames.length + 1)
    ∧ (∀ st : Display, ∀ a b : Int, 0 ≤ a → a < 480 → 0 ≤ b → b < 32 →
        (st.render true).canvas a b = HEADER_BG)
    ∧ (∀ st : Display, st.render_mode = .DoubleBuffered → st.render false = st)
    ∧ (∀ st : Display, (st.render false).render_mode = st.render_mode)
    ∧ (∀ st : Display, st.disable_double_buffer.render_mode = .Immediate)
    ∧ (∀ (st : Display) (c : Nat), (st.set_foreground_color c).render_mode = st.render_mode)
    ∧ (∀ (st : Display) (c : Nat), (st.set_background_color c).render_mode = st.render_mode)
    ∧ (∀ st : Display, st.erase.render_mode = st.render_mode)
    ∧ (∀ (st : Display) (shape : Path) (stroke : Bool) (st2 : Display),
        st.draw shape stroke = some st2 → st2.render_mode = st.render_mode)
    ∧ (∀ (st : Display) (buf : List Nat) (tl br : Int × Int) (stride : Nat) (st2 : Display),
        st.draw_buffer buf tl br stride = some st2 → st2.render_mode = st.render_mode)
    ∧ (∀ (st : Display) (lf : LayoutFn) (cf : ComposeFn) (text : String)
        (coords : Int × Int) (options : TextOptions) (st2 : Display),
        st.write_text lf cf text coords options = some st2 →
        st2.render_mode = st.render_mode)
    ∧ (∀ (st : Display) (lf : LayoutFn) (text : String) (ft : FontType)
        (st2 : Display) (sz : Int × Int),
        st.calculate_string_size lf text ft = some (st2, sz) →
        st2.render_mode = st.render_mode) := by
  refine ⟨fun _ => rfl, fun _ => rfl, fun _ => rfl, ?_, render_false_of_double_buffered,
    render_false_mode, fun _ => rfl, fun _ _ => rfl, fun _ _ => rfl, fun _ => rfl,
    ?_, ?_, ?_, ?_⟩
  · intro st a b ha1 ha2 hb1 hb2
    show filledBoxFb st.canvas (0, 0) 480 32 HEADER_BG a b = HEADER_BG
    unfold filledBoxFb
    rw [if_pos]
    unfold inFb DISPLAY_WIDTH DISPLAY_HEIGHT
    push_cast
    omega
  · intro st shape stroke st2 h
    unfold Display.draw at h
    split at h
    · cases h
    · cases h
      exact render_false_mode _
  · intro st buf tl br stride st2 h
    unfold Display.draw_buffer at h
    split at h
    · cases h
    · cases h
      rfl
  · intro st lf cf text coords options st2 h
    unfold Display.write_text at h
    split at h
    · cases h
      rfl
    · split at h
      · cases h
      · next stB hB =>
        cases h
        rw [render_false_mode]
        have h2 := draw_text_backdrop_fields _ _ _ _ _ hB
        show stB.render_mode = st.render_mode
        rw [h2.1, glyphs_for_fst]
  · intro st lf text ft st2 sz h
    unfold Display.calculate_string_size at h
    split at h
    · cases h
    · cases h
      show ((st.glyphs_for lf text ft).1).render_mode = st.render_mode
      rw [glyphs_for_fst]

/-- Cache hit: when the cached key matches, `glyphs_for` returns the cached
glyphs, for every layout function (so no re-layout happens). -/
theorem glyphs_for_hit (st : Display) (lf : LayoutFn) (t : String) (f : FontType)
    (g : List Glyph) (hc : st.text_layout_cache = some (t, f, g)) :
    st.glyphs_for lf t f = ({ st with text_layout_cache := none }, g) := by
  obtain ⟨c1, c2, c3, c4, c5, c6, c7⟩ := st
  simp only at hc
  subst hc
  unfold Display.glyphs_for Display.take_cached_glyphs_for
  dsimp only
  rw [if_pos ⟨rfl, rfl⟩]

/-- Cache miss: when no cached entry has the queried key, `glyphs_for`
performs a fresh layout. -/
theorem glyphs_for_miss (st : Display) (lf : LayoutFn) (t : String) (f : FontType)
    (hne : ∀ g, st.text_layout_cache ≠ some (t, f, g)) :
    st.glyphs_for lf t f = ({ st with text_layout_cache := none }, lf t f) := by
  obtain ⟨c1, c2, c3, c4, c5, c6, c7⟩ := st
  unfold Display.glyphs_for Display.take_cached_glyphs_for
  rcases c6 with _ | ⟨ct, cf2, g⟩
  · rfl
  · dsimp only
    rw [if_neg]
    intro hk
    obtain ⟨hk1, hk2⟩ := hk
    subst hk1
    subst hk2
    exact hne g rfl

/-- The render pipeline never touches the glyph cache. -/
theorem render_cache (st : Display) (e : Bool) :
    (st.render e).text_layout_cache = st.text_layout_cache := by
  unfold Display.render
  split
  · rfl
  · split <;> rfl

/-- C4: the glyph-layout cache holds at most one entry (it is an `Option` of
a single `(text, font_type, glyphs)` triple); `glyphs_for` returns the
cached glyphs iff the queried key equals the cached key — independently of
the layout function, hence with no re-layout — and otherwise lays out
freshly; after every successful `calculate_string_size` or (non-empty-text)
`write_text` the cache holds exactly that call's key and glyphs, and an
immediately repeated `calculate_string_size` with the same pair returns the
same geometry from the cache for any layout function. -/
theorem glyph_cache_consistency :
    (∀ (st : Display) (lf : LayoutFn) (t : String) (f : FontType) (g : List Glyph),
        st.text_layout_cache = some (t, f, g) →
        st.glyphs_for lf t f = ({ st with text_layout_cache := none }, g))
    ∧ (∀ (st : Display) (lf : LayoutFn) (t : String) (f : FontType),
        (∀ g, st.text_layout_cache ≠ some (t, f, g)) →
        st.glyphs_for lf t f = ({ st with text_layout_cache := none }, lf t f))
    ∧ (∀ (st : Display) (lf : LayoutFn) (t : String) (f : FontType)
        (st2 : Display) (sz : Int × Int),
        st.calculate_string_size lf t f = some (st2, sz) →
        st2.text_layout_cache = some (t, f, (st.glyphs_for lf t f).2))
    ∧ (∀ (st : Display) (lf : LayoutFn) (cf : ComposeFn) (t : String)
        (coords : Int × Int) (options : TextOptions) (st2 : Display),
        ¬t = "" → st.write_text lf cf t coords options = some st2 →
        st2.text_layout_cache =
          some (t, options.font_type, (st.glyphs_for lf t options.font_type).2))
    ∧ (∀ (st : Display) (lf lf2 : LayoutFn) (t : String) (f : FontType)
        (st2 : Display) (sz : Int × Int),
        st.calculate_string_size lf t f = some (st2, sz) →
        st2.calculate_string_size lf2 t f = some (st2, sz)) := by
  refine ⟨glyphs_for_hit, glyphs_for_miss, ?_, ?_, ?_⟩
  · intro st lf t f st2 sz h
    unfold Display.calculate_string_size at h
    split at h
    · cases h
    · cases h
      rfl
  · intro st lf cf t coords options st2 hne h
    unfold Display.write_text at h
    rw [if_neg hne] at h
    split at h
    · cases h
    · next stB hB =>
      cases h
      rw [render_cache]
  · intro st lf lf2 t f st2 sz h
    unfold Display.calculate_string_size at h
    split at h
    · cases h
    · next sz0 hsz =>
      cases h
      unfold Display.calculate_string_size
      rw [glyphs_for_hit _ lf2 t f _ rfl]
      dsimp only
      rw [hsz]

/-- The fixture program options: white foreground on black background. -/
def testPO : ProgramOptions := ⟨WHITE, BLACK⟩

/-- A concrete display fixture. -/
def testDisplay : Display := Display.new testPO

/-- A concrete layout function that produces no glyphs. -/
def constNoGlyphs : LayoutFn := fun _ _ => []

/-- C10: for every font type, `calculate_string_size` on the empty string
returns the point `(0, 0)` (the default bounding-box maximum when there are
no glyphs) instead of failing, and leaves the cache holding
`("", font_type, [])`.  The hypotheses record that the layout of the empty
string has no glyphs (rusttype lays out one glyph per character) and that
any cached entry for the empty string likewise holds no glyphs. -/
theorem calculate_string_size_empty (st : Display) (lf : LayoutFn) (f : FontType)
    (hlf : lf "" f = [])
    (hcache : ∀ g, st.text_layout_cache = some ("", f, g) → g = []) :
    st.calculate_string_size lf "" f =
      some ({ st with text_layout_cache := some ("", f, []) }, (0, 0)) := by
  by_cases hc : ∃ g, st.text_layout_cache = some ("", f, g)
  · obtain ⟨g, hg⟩ := hc
    have hg0 : g = [] := hcache g hg
    subst hg0
    unfold Display.calculate_string_size
    rw [glyphs_for_hit st lf "" f [] hg]
    rfl
  · have hne : ∀ g, st.text_layout_cache ≠ some ("", f, g) := fun g h => hc ⟨g, h⟩
    unfold Display.calculate_string_size
    rw [glyphs_for_miss st lf "" f hne]
    dsimp only
    rw [hlf]
    rfl

/-- Witness for C10 at a concrete display, layout function and font. -/
theorem calculate_string_size_empty_witness :
    testDisplay.calculate_string_size constNoGlyphs "" FontType.Normal =
      some ({ testDisplay with
        text_layout_cache := some ("", FontType.Normal, []) }, (0, 0)) :=
  calculate_string_size_empty testDisplay constNoGlyphs FontType.Normal rfl
    (fun g h => by simp [testDisplay, Display.new] at h)

/-- C3 (amended): for rectangles whose corners are ordered (`x1 ≤ x2`,
`y1 ≤ y2`) and for all circles, `draw` completes without failing and mutates
only framebuffer pixels inside `[0,480) × [0,272)`; coordinates (for
circles, only the center) are clamped into `[0,479] × [0,271]` by
`normalize` before rasterization, and remaining out-of-range writes are
dropped.  (The unrestricted claim is refuted by
`draw_inverted_rect_panics`.) -/
theorem draw_shapes_bounded :
    (∀ (st : Display) (x1 y1 x2 y2 : Int) (stroke : Bool), x1 ≤ x2 → y1 ≤ y2 →
        ∃ st2, st.draw (.Rect x1 y1 x2 y2) stroke = some st2
          ∧ ∀ a b : Int, ¬inFb a b → st2.canvas a b = st.canvas a b)
    ∧ (∀ (st : Display) (cx cy radius : Int) (stroke : Bool),
        ∃ st2, st.draw (.Circle cx cy radius) stroke = some st2
          ∧ ∀ a b : Int, ¬inFb a b → st2.canvas a b = st.canvas a b)
    ∧ (∀ p : Path,
        match p.normalize with
        | .Rect a1 b1 a2 b2 =>
            0 ≤ a1 ∧ a1 ≤ 479 ∧ 0 ≤ a2 ∧ a2 ≤ 479 ∧ 0 ≤ b1 ∧ b1 ≤ 271 ∧ 0 ≤ b2 ∧ b2 ≤ 271
        | .Circle ca cb _ => 0 ≤ ca ∧ ca ≤ 479 ∧ 0 ≤ cb ∧ cb ≤ 271) := by
  refine ⟨?_, ?_, ?_⟩
  · intro st x1 y1 x2 y2 stroke hx hy
    have hmx : clampI x1 0 (DISPLAY_WIDTH - 1) ≤ clampI x2 0 (DISPLAY_WIDTH - 1) :=
      max_le_max le_rfl (min_le_min hx le_rfl)
    have hmy : clampI y1 0 (DISPLAY_HEIGHT - 1) ≤ clampI y2 0 (DISPLAY_HEIGHT - 1) :=
      max_le_max le_rfl (min_le_min hy le_rfl)
    unfold Display.draw
    simp only [Path.normalize, Path.draw]
    rw [if_neg]
    · refine ⟨_, rfl, ?_⟩
      intro a b hout
      rw [render_canvas_out _ _ _ _ hout]
      cases stroke
      · exact filledBoxFb_out _ _ _ _ _ _ _ hout
      · exact boxFb_out _ _ _ _ _ _ _ hout
    · simp only [not_or, not_lt]
      omega
  · intro st cx cy radius stroke
    unfold Display.draw
    simp only [Path.normalize, Path.draw]
    refine ⟨_, rfl, ?_⟩
    intro a b hout
    rw [render_canvas_out _ _ _ _ hout]
    cases stroke
    · exact circleFb_out _ _ _ _ _ _ hout
    · exact borderCircleFb_out _ _ _ _ _ _ hout
  · intro p
    cases p <;> simp only [Path.normalize, clampI, DISPLAY_WIDTH, DISPLAY_HEIGHT] <;> omega

/-- C3 counterexample: the rectangle with corners (10,50)-(5,60) — every
coordinate inside the display, but `x2 < x1` — makes `Path::draw` panic on
`(x2 - x1).try_into().unwrap()`, so `draw` does not complete without failing
on every integer input. -/
theorem draw_inverted_rect_panics :
    testDisplay.draw (.Rect 10 50 5 60) false = none := rfl

/-- The first NUL search fails exactly on NUL-free byte sequences. -/
theorem bytes_until_nul_none (l : List Nat) :
    bytes_until_nul l = none ↔ ¬(0 ∈ l) := by
  induction l with
  | nil => simp [bytes_until_nul]
  | cons b rest ih =>
    by_cases hb : b = 0
    · subst hb
      simp [bytes_until_nul]
    · simp only [bytes_until_nul, if_neg hb, Option.map_eq_none', ih, List.mem_cons]
      constructor
      · intro hn hor
        rcases hor with hor | hor
        · exact hb hor.symm
        · exact hn hor
      · intro hn hm
        exact hn (Or.inr hm)

/-- When a NUL exists, the first NUL search returns the bytes before it. -/
theorem bytes_until_nul_some (l : List Nat) (h : 0 ∈ l) :
    bytes_until_nul l = some (l.takeWhile (fun b => b != 0)) := by
  induction l with
  | nil => cases h
  | cons b rest ih =>
    by_cases hb : b = 0
    · subst hb
      simp [bytes_until_nul, List.takeWhile]
    · have hr : 0 ∈ rest := by
        rcases List.mem_cons.mp h with h1 | h1
        · exact absurd h1.symm hb
        · exact h1
      have hbeq : (b == 0) = false := by simpa using hb
      simp [bytes_until_nul, hb, ih hr, List.takeWhile_cons, hbeq]

/-- C7 (amended): for every offset at most the memory's size,
`read_c_string` completes and returns `None` iff the bytes from `offset`
hold no NUL or the bytes before the first NUL are not valid UTF-8, and
otherwise returns exactly the bytes strictly before the first NUL.  (The
unrestricted claim — totality for offsets beyond the memory size — is
refuted by `read_c_string_beyond_panics`.) -/
theorem read_c_string_spec (mem : List Nat) (offset : Nat)
    (hoff : offset ≤ mem.length) :
    ∃ r, read_c_string mem offset = some r
      ∧ (r = none ↔ (¬(0 ∈ mem.drop offset)
            ∨ validUtf8 ((mem.drop offset).takeWhile (fun b => b != 0)) = false))
      ∧ (∀ s, r = some s → 0 ∈ mem.drop offset ∧ validUtf8 s = true
            ∧ s = (mem.drop offset).takeWhile (fun b => b != 0)) := by
  unfold read_c_string
  rw [if_pos hoff]
  by_cases h0 : 0 ∈ mem.drop offset
  · rw [bytes_until_nul_some _ h0]
    by_cases hv : validUtf8 ((mem.drop offset).takeWhile (fun b => b != 0)) = true
    · refine ⟨_, rfl, ?_, ?_⟩
      · dsimp only
        rw [if_pos hv]
        simp [h0, hv]
      · intro s hs
        dsimp only at hs
        rw [if_pos hv] at hs
        simp only [Option.some.injEq] at hs
        subst hs
        exact ⟨h0, hv, rfl⟩
    · refine ⟨_, rfl, ?_, ?_⟩
      · dsimp only
        rw [if_neg hv]
        simp only [Bool.not_eq_true] at hv
        simp [hv]
      · intro s hs
        dsimp only at hs
        rw [if_neg hv] at hs
        cases hs
  · rw [(bytes_until_nul_none _).mpr h0]
    refine ⟨_, rfl, ?_, ?_⟩
    · simp [h0]
    · intro s hs
      cases hs

/-- C7 counterexample: reading at offset 2 of a 1-byte memory panics (the
slice `&data[offset..]` is out of range), so the operation is not total for
offsets beyond the memory's size. -/
theorem read_c_string_beyond_panics :
    read_c_string [72] 2 = none := rfl

/-- Witness for C7 at a concrete memory: the bytes `"H\x00"` decode to
`[72]`. -/
theorem read_c_string_spec_witness :
    read_c_string [72, 0] 0 = some (some [72]) := by
  obtain ⟨r, hr, h1, h2⟩ := read_c_string_spec [72, 0] 0 (by decide)
  rcases r with _ | s
  · exfalso
    have hd := h1.mp rfl
    revert hd
    decide
  · obtain ⟨h3, h4, h5⟩ := h2 s rfl
    subst h5
    exact hr

/-- Model of `execute_command` never sends events. -/
theorem execute_command_sent (st : SdkState) (c : Command) (s : SdkState)
    (h : st.execute_command c = .ok s ∨ st.execute_command c = .err s) :
    s.protocol_sent = st.protocol_sent := by
  rcases h with h | h <;> cases c <;>
    simp only [SdkState.execute_command] at h <;>
    (try split at h) <;> cases h <;> rfl

/-- Model of `is_executing` never falls back from true. -/
theorem execute_command_executing_mono (st : SdkState) (c : Command) (s : SdkState)
    (h : st.execute_command c = .ok s ∨ st.execute_command c = .err s)
    (hex : st.is_executing = true) : s.is_executing = true := by
  rcases h with h | h <;> cases c <;>
    simp only [SdkState.execute_command] at h <;>
    (try split at h) <;> cases h <;> (try rfl) <;> exact hex

/-- Inversion for `liftExec` on errors. -/
theorem liftExec_err {e : ExecOut} {s : SdkState} (h : liftExec e = .err s) :
    e = .err s := by
  cases e <;> simp only [liftExec] at h <;> cases h <;> rfl

/-- No `liftExec` outcome is the blocked outcome. -/
theorem liftExec_ne_blocked (e : ExecOut) (s : SdkState) : liftExec e ≠ .blocked s := by
  cases e <;> simp [liftExec]

/-- A blocked `recv_command` leaves the state untouched. -/
theorem recv_command_blocked (st s : SdkState) (h : st.recv_command = .blocked s) :
    s = st ∧ st.command_process_queue = [] ∧ st.protocol_input = [] := by
  obtain ⟨d, inp, cm, ex, q, pin, sent, lg⟩ := st
  unfold SdkState.recv_command at h
  rcases q with _ | ⟨c, rest⟩
  · rcases pin with _ | ⟨c, rest⟩
    · dsimp only at h
      refine ⟨?_, rfl, rfl⟩
      cases h
      rfl
    · dsimp only at h
      exact absurd h (liftExec_ne_blocked _ _)
  · dsimp only at h
    exact absurd h (liftExec_ne_blocked _ _)

/-- A completed `recv_command` comes from `execute_command` on a state with
the same sent log and execution flag. -/
theorem recv_command_exec (st s : SdkState)
    (h : st.recv_command = .ok s ∨ st.recv_command = .err s) :
    ∃ (st1 : SdkState) (c : Command),
      (st1.execute_command c = .ok s ∨ st1.execute_command c = .err s)
      ∧ st1.protocol_sent = st.protocol_sent ∧ st1.is_executing = st.is_executing := by
  obtain ⟨d, inp, cm, ex, q, pin, sent, lg⟩ := st
  unfold SdkState.recv_command at h
  rcases q with _ | ⟨c, rest⟩
  · rcases pin with _ | ⟨c, rest⟩
    · dsimp only at h
      rcases h with h | h <;> cases h
    · dsimp only at h
      refine ⟨⟨d, inp, cm, ex, [], rest, sent, lg⟩, c, ?_, rfl, rfl⟩
      rcases h with h | h
      · exact Or.inl (liftExec_ok h)
      · exact Or.inr (liftExec_err h)
  · dsimp only at h
    refine ⟨⟨d, inp, cm, ex, rest, pin, sent, lg⟩, c, ?_, rfl, rfl⟩
    rcases h with h | h
    · exact Or.inl (liftExec_ok h)
    · exact Or.inr (liftExec_err h)

/-- The setup loop only returns `ok` once `is_executing` holds. -/
theorem setupLoop_ok_executing (st : SdkState) :
    ∀ s, st.setupLoop = .ok s → s.is_executing = true := by
  induction st using SdkState.setupLoop.induct with
  | case1 st hex =>
    intro s h
    rw [SdkState.setupLoop, if_pos hex] at h
    cases h
    exact hex
  | case2 st hex s hrecv =>
    intro s2 h
    rw [SdkState.setupLoop, if_neg hex, hrecv] at h
    cases h
  | case3 st hex hrecv =>
    intro s2 h
    rw [SdkState.setupLoop, if_neg hex, hrecv] at h
    cases h
  | case4 st hex s hrecv =>
    intro s2 h
    rw [SdkState.setupLoop, if_neg hex, hrecv] at h
    cases h
  | case5 st hex s hrecv ih =>
    intro s2 h
    rw [SdkState.setupLoop, if_neg hex, hrecv] at h
    exact ih s2 h

/-- The setup loop never changes the sent-event log. -/
theorem setupLoop_sent (st : SdkState) :
    ∀ s, (st.setupLoop = .ok s ∨ st.setupLoop = .err s ∨ st.setupLoop = .blocked s) →
      s.protocol_sent = st.protocol_sent := by
  induction st using SdkState.setupLoop.induct with
  | case1 st hex =>
    intro s h
    rcases h with h | h | h <;> rw [SdkState.setupLoop, if_pos hex] at h <;> cases h <;> rfl
  | case2 st hex s hrecv =>
    intro s2 h
    rcases h with h | h | h <;> rw [SdkState.setupLoop, if_neg hex, hrecv] at h <;> cases h
    exact (recv_command_blocked st s hrecv).1 ▸ rfl
  | case3 st hex hrecv =>
    intro s2 h
    rcases h with h | h | h <;> rw [SdkState.setupLoop, if_neg hex, hrecv] at h <;> cases h
  | case4 st hex s hrecv =>
    intro s2 h
    rcases h with h | h | h <;> rw [SdkState.setupLoop, if_neg hex, hrecv] at h <;> cases h
    obtain ⟨st1, c, hee, hsent, _⟩ := recv_command_exec st s (Or.inr hrecv)
    rw [execute_command_sent st1 c s hee, hsent]
  | case5 st hex s hrecv ih =>
    intro s2 h
    rcases h with h | h | h <;> rw [SdkState.setupLoop, if_neg hex, hrecv] at h
    all_goals
      obtain ⟨st1, c, hee, hsent, _⟩ := recv_command_exec st s (Or.inl hrecv)
      rw [ih s2 (by tauto), execute_command_sent st1 c s hee, hsent]

/-- C5: `setup` first sends `Ready` and then processes commands in a loop
until `StartExecution` sets `is_executing`; when `setup` returns
successfully the flag is true; the flag transitions false → true exactly
once: `StartExecution` on an already-executing state fails with a
recoverable error (`bail!`) leaving every device-state field unchanged, a
first `StartExecution` sets the flag, no other command changes it, and no
command ever resets it. -/
theorem setup_start_execution :
    (∀ st s : SdkState,
        (st.setup = .ok s ∨ st.setup = .err s ∨ st.setup = .blocked s) →
        s.protocol_sent = st.protocol_sent ++ [Event.Ready])
    ∧ (∀ st s : SdkState, st.setup = .ok s → s.is_executing = true)
    ∧ (∀ st : SdkState, st.is_executing = true →
        ∃ s, st.execute_command .StartExecution = .err s
          ∧ s.display = st.display ∧ s.inputs = st.inputs
          ∧ s.competition_mode = st.competition_mode ∧ s.is_executing = true
          ∧ s.command_process_queue = st.command_process_queue
          ∧ s.protocol_input = st.protocol_input
          ∧ s.protocol_sent = st.protocol_sent)
    ∧ (∀ st : SdkState, st.is_executing = false →
        st.execute_command .StartExecution =
          .ok { st with
                is_executing := true
                exec_log := st.exec_log ++ [Command.StartExecution] })
    ∧ (∀ (st : SdkState) (c : Command) (s : SdkState),
        (st.execute_command c = .ok s ∨ st.execute_command c = .err s) →
        st.is_executing = true → s.is_executing = true)
    ∧ (∀ (st : SdkState) (c : Command) (s : SdkState), c ≠ .StartExecution →
        st.execute_command c = .ok s → s.is_executing = st.is_executing) := by
  refine ⟨?_, ?_, ?_, ?_, execute_command_executing_mono, ?_⟩
  · intro st s h
    have := setupLoop_sent { st with protocol_sent := st.protocol_sent ++ [Event.Ready] } s h
    simpa using this
  · intro st s h
    exact setupLoop_ok_executing _ s h
  · intro st hex
    refine ⟨{ st with exec_log := st.exec_log ++ [Command.StartExecution] }, ?_,
      rfl, rfl, rfl, hex, rfl, rfl, rfl⟩
    simp only [SdkState.execute_command]
    rw [if_pos]
    exact hex
  · intro st hex
    simp only [SdkState.execute_command]
    rw [if_neg]
    simp [hex]
  · intro st c s hne h
    cases c <;> simp only [SdkState.execute_command] at h <;>
      (try split at h) <;> cases h <;> (try rfl)
    exact absurd rfl hne

/-- Model of `execute_command` appends exactly the executed command to the ghost
execution log. -/
theorem execute_command_log (st : SdkState) (c : Command) (s : SdkState)
    (h : st.execute_command c = .ok s) : s.exec_log = st.exec_log ++ [c] := by
  cases c <;> simp only [SdkState.execute_command] at h <;>
    (try split at h) <;> cases h <;> rfl

/-- Unfolding step of `recv_all_commands` when the deferred queue is
non-empty: the queue front is executed first. -/
theorem recv_all_step_queue (st : SdkState) (c : Command) (rest : List Command)
    (hq : st.command_process_queue = c :: rest) :
    st.recv_all_commands =
      (match SdkState.execute_command { st with command_process_queue := rest } c with
        | .panic => .panic
        | .err s => .err s
        | .ok s => s.recv_all_commands) := by
  rw [SdkState.recv_all_commands]
  split
  · next c2 rest2 heq =>
    rw [hq] at heq
    injection heq with h1 h2
    subst h1
    subst h2
    cases he : SdkState.execute_command { st with command_process_queue := rest } c <;> rfl
  · next heq =>
    rw [hq] at heq
    cases heq

/-- Unfolding step of `recv_all_commands` when the deferred queue is empty
and the channel has a command available. -/
theorem recv_all_step_input (st : SdkState) (c : Command) (rest : List Command)
    (hq : st.command_process_queue = []) (hi : st.protocol_input = c :: rest) :
    st.recv_all_commands =
      (match SdkState.execute_command { st with protocol_input := rest } c with
        | .panic => .panic
        | .err s => .err s
        | .ok s => s.recv_all_commands) := by
  rw [SdkState.recv_all_commands]
  split
  · next c2 rest2 heq =>
    rw [hq] at heq
    cases heq
  · split
    · next c2 rest2 heq =>
      rw [hi] at heq
      injection heq with h1 h2
      subst h1
      subst h2
      cases he : SdkState.execute_command { st with protocol_input := rest } c <;> rfl
    · next heq =>
      rw [hi] at heq
      cases heq

/-- Model of `recv_all_commands` finishes immediately when nothing is pending. -/
theorem recv_all_done (st : SdkState) (hq : st.command_process_queue = [])
    (hi : st.protocol_input = []) : st.recv_all_commands = .ok st := by
  rw [SdkState.recv_all_commands]
  split
  · next c2 rest2 heq =>
    rw [hq] at heq
    cases heq
  · split
    · next c2 rest2 heq =>
      rw [hi] at heq
      cases heq
    · rfl

/-- A successful drain executes first the whole deferred queue, then every
available channel command, in order, and leaves both empty. -/
theorem recv_all_commands_log (st : SdkState) :
    ∀ s, st.recv_all_commands = .ok s →
      s.exec_log = st.exec_log ++ (st.command_process_queue ++ st.protocol_input)
        ∧ s.command_process_queue = [] ∧ s.protocol_input = [] := by
  induction st using SdkState.recv_all_commands.induct with
  | case1 st c rest hq h =>
    intro s hs
    rw [recv_all_step_queue st c rest hq, h] at hs
    cases hs
  | case2 st c rest hq s1 h =>
    intro s hs
    rw [recv_all_step_queue st c rest hq, h] at hs
    cases hs
  | case3 st c rest hq s1 h ih =>
    intro s hs
    rw [recv_all_step_queue st c rest hq, h] at hs
    obtain ⟨hlog, hq2, hi2⟩ := ih s hs
    have hql := execute_command_queue_input _ _ _ (Or.inl h)
    have hlg := execute_command_log _ _ _ h
    simp only at hql hlg
    refine ⟨?_, hq2, ?_⟩
    · rw [hlog, hlg, hql.1, hql.2, hq]
      simp
    · rw [hi2]
  | case4 st hq c rest hi h =>
    intro s hs
    rw [recv_all_step_input st c rest hq hi, h] at hs
    cases hs
  | case5 st hq c rest hi s1 h =>
    intro s hs
    rw [recv_all_step_input st c rest hq hi, h] at hs
    cases hs
  | case6 st hq c rest hi s1 h ih =>
    intro s hs
    rw [recv_all_step_input st c rest hq hi, h] at hs
    obtain ⟨hlog, hq2, hi2⟩ := ih s hs
    have hql := execute_command_queue_input _ _ _ (Or.inl h)
    have hlg := execute_command_log _ _ _ h
    simp only at hql hlg
    refine ⟨?_, hq2, ?_⟩
    · rw [hlog, hlg, hql.1, hql.2, hq, hi]
      simp
    · rw [hi2]
  | case7 st hq hi =>
    intro s hs
    rw [recv_all_done st hq hi] at hs
    cases hs
    rw [hq, hi]
    exact ⟨by simp, rfl, rfl⟩

/-- Unfolding step of `wait_for_command` when the channel has a command
available. -/
theorem wait_for_step (st : SdkState) (check : Command → Bool) (c : Command)
    (rest : List Command) (hin : st.protocol_input = c :: rest) :
    st.wait_for_command check =
      (if check c then
        match SdkState.execute_command { st with protocol_input := rest } c with
        | .panic => .panic
        | .err s => .ok s
        | .ok s => .ok s
      else
        SdkState.wait_for_command
          { st with
            command_process_queue := st.command_process_queue ++ [c]
            protocol_input := rest } check) := by
  rw [SdkState.wait_for_command]
  split
  · next heq =>
    rw [hin] at heq
    cases heq
  · next c2 rest2 heq =>
    rw [hin] at heq
    injection heq with h1 h2
    subst h1
    subst h2
    rfl

/-- C6: a command received during `wait_for_command` that does not satisfy
the predicate is pushed onto the deferred queue (none is dropped): with
channel contents `pre ++ c :: rest` where every command of `pre` fails the
predicate and `c` satisfies it, the wait appends exactly `pre`, in order, to
the deferred queue and executes `c`; every subsequent drain executes the
deferred commands in FIFO order ahead of the channel (`recv_all_commands`
logs `queue ++ input`; `recv_command` takes the queue front before polling
the channel). -/
theorem command_deferral_fifo :
    (∀ (st : SdkState) (check : Command → Bool) (pre rest : List Command) (c : Command),
        (∀ x ∈ pre, check x = false) → check c = true →
        st.protocol_input = pre ++ c :: rest →
        st.wait_for_command check =
          (match SdkState.execute_command
              { st with
                command_process_queue := st.command_process_queue ++ pre
                protocol_input := rest } c with
            | .panic => .panic
            | .err s => .ok s
            | .ok s => .ok s))
    ∧ (∀ st s : SdkState, st.recv_all_commands = .ok s →
        s.exec_log = st.exec_log ++ (st.command_process_queue ++ st.protocol_input)
          ∧ s.command_process_queue = [] ∧ s.protocol_input = [])
    ∧ (∀ (st : SdkState) (c : Command) (rest : List Command),
        st.command_process_queue = c :: rest →
        st.recv_command =
          liftExec (SdkState.execute_command { st with command_process_queue := rest } c))
    ∧ (∀ (st : SdkState) (c : Command) (rest : List Command),
        st.command_process_queue = [] → st.protocol_input = c :: rest →
        st.recv_command =
          liftExec (SdkState.execute_command { st with protocol_input := rest } c)) := by
  refine ⟨?_, fun st s => recv_all_commands_log st s, ?_, ?_⟩
  · intro st check pre
    induction pre generalizing st with
    | nil =>
      intro rest c hpre hc hin
      simp only [List.nil_append] at hin
      rw [wait_for_step st check c rest hin, if_pos hc]
      simp only [List.append_nil]
    | cons p pre2 ih =>
      intro rest c hpre hc hin
      have hin2 : st.protocol_input = p :: (pre2 ++ c :: rest) := by simpa using hin
      rw [wait_for_step st check p (pre2 ++ c :: rest) hin2,
        if_neg (by simp [hpre p (by simp)])]
      rw [ih _ rest c (fun x hx => hpre x (by simp [hx])) hc rfl]
      simp only [List.append_assoc, List.singleton_append]
  · intro st c rest hq
    unfold SdkState.recv_command
    rw [hq]
  · intro st c rest hq hi
    unfold SdkState.recv_command
    rw [hq, hi]

/-- The install loop never changes the table's length. -/
theorem exposeGo_table_length (base : Nat) (l : List (Nat × Nat)) :
    ∀ (off : Nat) (g : GuestStore),
      (exposeGo base off l g).table.length = g.table.length := by
  induction l with
  | nil => intro off g; rfl
  | cons e rest ih =>
    intro off g
    simp [exposeGo, ih, exposeEntry]

/-- The install loop writes no table slot below its running index. -/
theorem exposeGo_table_lo (base : Nat) (l : List (Nat × Nat)) :
    ∀ (off : Nat) (g : GuestStore) (idx : Nat), idx < base + off →
      (exposeGo base off l g).table.getD idx none = g.table.getD idx none := by
  induction l with
  | nil => intro off g idx _; rfl
  | cons e rest ih =>
    intro off g idx hidx
    show (exposeGo base (off + 1) rest (exposeEntry base off e g)).table.getD idx none = _
    rw [ih (off + 1) _ idx (by omega)]
    simp only [exposeEntry]
    rw [List.getD_eq_getElem?_getD, List.getElem?_set_ne (by omega),
      ← List.getD_eq_getElem?_getD]

/-- Each entry's host function ends up at its assigned slot. -/
theorem exposeGo_table_get (base : Nat) (l : List (Nat × Nat)) :
    ∀ (off : Nat) (g : GuestStore) (j : Nat), j < l.length →
      base + off + l.length ≤ g.table.length →
      (exposeGo base off l g).table.getD (base + off + j) none
        = some (l.getD j (0, 0)).2 := by
  induction l with
  | nil => intro off g j hj _; cases hj
  | cons e rest ih =>
    intro off g j hj hlen
    show (exposeGo base (off + 1) rest (exposeEntry base off e g)).table.getD _ none = _
    rcases j with _ | j
    · simp only [Nat.add_zero]
      rw [exposeGo_table_lo base rest (off + 1) _ (base + off) (by omega)]
      simp only [exposeEntry, Nat.add_zero]
      rw [List.getD_eq_getElem?_getD, List.getElem?_set_self (by simp at hlen; omega)]
      rfl
    · have : base + off + (j + 1) = base + (off + 1) + j := by omega
      rw [this, ih (off + 1) _ j (by simp at hj; omega)
        (by simp only [exposeEntry, List.length_set]; simp at hlen; omega)]
      rfl

/-- The install loop leaves memory outside every entry's 4-byte window
untouched. -/
theorem exposeGo_memory_out (base : Nat) (l : List (Nat × Nat)) :
    ∀ (off : Nat) (g : GuestStore) (a : Nat),
      (∀ p ∈ l, ¬(JUMP_TABLE_START + p.1 ≤ a ∧ a < JUMP_TABLE_START + p.1 + 4)) →
      (exposeGo base off l g).memory a = g.memory a := by
  induction l with
  | nil => intro off g a _; rfl
  | cons e rest ih =>
    intro off g a hout
    show (exposeGo base (off + 1) rest (exposeEntry base off e g)).memory a = _
    rw [ih (off + 1) _ a (fun p hp => hout p (by simp [hp]))]
    simp only [exposeEntry, memWrite, u32_le_bytes]
    rw [if_neg]
    have := hout e (by simp)
    simpa using this

/-- Each entry's slot index is written little-endian at its jump-table
address, provided the addresses are pairwise at least 4 apart. -/
theorem exposeGo_memory_get (base : Nat) (l : List (Nat × Nat)) :
    ∀ (off : Nat) (g : GuestStore) (i t : Nat), i < l.length → t < 4 →
      List.Pairwise (fun p q => p.1 + 4 ≤ q.1 ∨ q.1 + 4 ≤ p.1) l →
      (exposeGo base off l g).memory (JUMP_TABLE_START + (l.getD i (0, 0)).1 + t)
        = (u32_le_bytes (base + off + i)).getD t 0 := by
  induction l with
  | nil => intro off g i t hi _ _; cases hi
  | cons e rest ih =>
    intro off g i t hi ht hpair
    show (exposeGo base (off + 1) rest (exposeEntry base off e g)).memory _ = _
    rcases i with _ | i
    · rw [exposeGo_memory_out base rest (off + 1) _ _ ?_]
      · simp only [exposeEntry, memWrite, List.getD_cons_zero]
        rw [if_pos (by simp [u32_le_bytes]; omega)]
        have harith : JUMP_TABLE_START + e.1 + t - (JUMP_TABLE_START + e.1) = t := by omega
        rw [harith, Nat.add_zero]
      · intro p hp
        have hsep := (List.pairwise_cons.mp hpair).1 p hp
        simp only [List.getD_cons_zero]
        omega
    · have heq : ((e :: rest).getD (i + 1) (0, 0)) = rest.getD i (0, 0) := rfl
      rw [heq, ih (off + 1) _ i t (by simp at hi; omega) ht
        (List.pairwise_cons.mp hpair).2]
      have : base + off + (i + 1) = base + (off + 1) + i := by omega
      rw [this]

/-- The bytes of `u32::to_le_bytes` are the base-256 digits. -/
theorem u32_le_bytes_getD (k t : Nat) (ht : t < 4) :
    (u32_le_bytes k).getD t 0 = k / 256 ^ t % 256 := by
  rcases t with _ | _ | _ | _ | t
  · simp [u32_le_bytes]
  · simp [u32_le_bytes]
  · norm_num [u32_le_bytes]
  · norm_num [u32_le_bytes]
  · omega

/-- C1: exposing a builder with `n` entries to a guest whose indirect
function table has size `base` grows the table by exactly `n` slots; the
entry at iteration index `i` (SDK address `A_i`) gets slot `base + i`: its
host function is stored there and the 4-byte little-endian encoding of
`base + i` is written at `JUMP_TABLE_START + A_i`; the addresses are
pairwise distinct and the assigned slots are exactly `base .. base + n`, so
the assignment is a bijection onto that range.  The hypothesis records that
distinct SDK addresses are at least 4 apart (true of the builder, whose
addresses are distinct multiples of 4), so the 4-byte writes do not
overlap. -/
theorem jump_table_expose_install (api : List (Nat × Nat)) (g : GuestStore)
    (hsep : List.Pairwise (fun p q => p.1 + 4 ≤ q.1 ∨ q.1 + 4 ≤ p.1) api) :
    (JumpTable.expose api g).table.length = g.table.length + api.length
    ∧ (∀ i, i < api.length →
        (JumpTable.expose api g).table.getD (g.table.length + i) none
          = some (api.getD i (0, 0)).2)
    ∧ (∀ i t, i < api.length → t < 4 →
        (JumpTable.expose api g).memory (JUMP_TABLE_START + (api.getD i (0, 0)).1 + t)
          = (g.table.length + i) / 256 ^ t % 256)
    ∧ (api.map Prod.fst).Nodup
    ∧ ((List.range api.length).map fun i => g.table.length + i)
        = List.range' g.table.length api.length := by
  refine ⟨?_, ?_, ?_, ?_, ?_⟩
  · unfold JumpTable.expose
    rw [exposeGo_table_length]
    simp
  · intro i hi
    unfold JumpTable.expose
    have := exposeGo_table_get g.table.length api 0 { g with table := g.table ++ List.replicate api.length none } i hi (by simp)
    simpa using this
  · intro i t hi ht
    unfold JumpTable.expose
    have := exposeGo_memory_get g.table.length api 0 { g with table := g.table ++ List.replicate api.length none } i t hi ht hsep
    rw [u32_le_bytes_getD _ t ht] at this
    simpa using this
  · have hne : api.Pairwise fun p q => p.1 ≠ q.1 :=
      hsep.imp (by intro a b h; omega)
    exact List.pairwise_map.mpr hne
  · exact (List.range'_eq_map_range _ _).symm

theorem writeChecked_ne (fb : Fb) (x y : Int) (c : RGB) (a b : Int)
    (h : ¬(a = x ∧ b = y)) : writeChecked fb x y c a b = fb a b := by
  unfold writeChecked setPix
  split
  · exact if_neg h
  · rfl

theorem writeChecked_self (fb : Fb) (x y : Int) (c : RGB) :
    writeChecked fb x y c x y = if inFb x y then c else fb x y := by
  unfold writeChecked setPix
  split <;> simp_all

theorem decodeAt_cons4 (b0 b1 b2 b3 : Nat) (rest : List Nat) (m : Nat) :
    decodeAt (b0 :: b1 :: b2 :: b3 :: rest) (m + 4) = decodeAt rest m := rfl

theorem getD_take (l : List Nat) (n m : Nat) (h : m < n) :
    (l.take n).getD m 0 = l.getD m 0 := by
  rw [List.getD_eq_getElem?_getD, List.getD_eq_getElem?_getD, List.getElem?_take, if_pos h]

theorem getD_drop (l : List Nat) (n m : Nat) :
    (l.drop n).getD m 0 = l.getD (n + m) 0 := by
  rw [List.getD_eq_getElem?_getD, List.getD_eq_getElem?_getD, List.getElem?_drop]

theorem decodeAt_take (l : List Nat) (n o : Nat) (h : o + 4 ≤ n) :
    decodeAt (l.take n) o = decodeAt l o := by
  unfold decodeAt
  rw [getD_take l n o (by omega), getD_take l n (o + 1) (by omega),
    getD_take l n (o + 2) (by omega), getD_take l n (o + 3) (by omega)]

theorem decodeAt_drop (l : List Nat) (n o : Nat) :
    decodeAt (l.drop n) o = decodeAt l (n + o) := by
  unfold decodeAt
  rw [getD_drop, getD_drop, getD_drop, getD_drop]
  have h1 : n + (o + 1) = n + o + 1 := by omega
  have h2 : n + (o + 2) = n + o + 2 := by omega
  have h3 : n + (o + 3) = n + o + 3 := by omega
  rw [h1, h2, h3]

/-- Pointwise characterization of the per-row pixel loop: on a row whose
length is a multiple of 4, the loop succeeds and writes pixel `i` of the row
to `(x + i, y)` iff that destination is inside the framebuffer. -/
theorem drawRowPixels_spec : ∀ (row : List Nat) (fb : Fb) (x y : Int),
    4 ∣ row.length →
    ∃ fb2, drawRowPixels fb x y row = some fb2
      ∧ ∀ a b : Int, fb2 a b =
          if b = y ∧ x ≤ a ∧ (a - x).toNat * 4 + 4 ≤ row.length ∧ inFb a b
          then decodeAt row ((a - x).toNat * 4)
          else fb a b
  | [], fb, x, y, _ => by
      refine ⟨fb, rfl, ?_⟩
      intro a b
      rw [if_neg]
      rintro ⟨-, -, h3, -⟩
      simp only [List.length_nil] at h3
      omega
  | [b0], fb, x, y, hd =>
      absurd hd (by simp only [List.length_cons, List.length_nil]; omega)
  | [b0, b1], fb, x, y, hd =>
      absurd hd (by simp only [List.length_cons, List.length_nil]; omega)
  | [b0, b1, b2], fb, x, y, hd =>
      absurd hd (by simp only [List.length_cons, List.length_nil]; omega)
  | b0 :: b1 :: b2 :: b3 :: rest, fb, x, y, hd => by
      have hd4 : 4 ∣ rest.length := by
        simp only [List.length_cons] at hd
        omega
      obtain ⟨fb2, hrec, hchar⟩ := drawRowPixels_spec rest
        (writeChecked fb x y (RGB.unpack (le32 b0 b1 b2 b3))) (x + 1) y hd4
      refine ⟨fb2, hrec, ?_⟩
      intro a b
      rw [hchar a b]
      have hlen : (b0 :: b1 :: b2 :: b3 :: rest).length = rest.length + 4 := by simp
      by_cases hb : b = y
      · by_cases hax : x + 1 ≤ a
        · have hk : (a - x).toNat * 4 = (a - (x + 1)).toNat * 4 + 4 := by
            have : (a - x).toNat = (a - (x + 1)).toNat + 1 := by omega
            omega
          by_cases hrest : (a - (x + 1)).toNat * 4 + 4 ≤ rest.length ∧ inFb a b
          · rw [if_pos ⟨hb, hax, hrest.1, hrest.2⟩,
              if_pos ⟨hb, by omega, by rw [hlen]; omega, hrest.2⟩, hk, decodeAt_cons4]
          · rw [if_neg (fun hc => hrest ⟨hc.2.2.1, hc.2.2.2⟩),
              if_neg (fun hc => hrest ⟨by have := hc.2.2.1; rw [hlen] at this; omega,
                hc.2.2.2⟩)]
            exact writeChecked_ne _ _ _ _ _ _ (fun hc => by omega)
        · by_cases haeq : a = x
          · rw [if_neg (fun hc => hax (by omega))]
            subst haeq
            subst hb
            by_cases hin : inFb a b
            · rw [if_pos ⟨rfl, le_refl a, by rw [hlen]; omega, hin⟩, writeChecked_self,
                if_pos hin]
              have h0 : ((a : Int) - a).toNat * 4 = 0 := by omega
              rw [h0]
              rfl
            · rw [if_neg (fun hc => hin hc.2.2.2), writeChecked_self, if_neg hin]
          · rw [if_neg (fun hc => by omega),
              if_neg (fun hc => haeq (by have := hc.2.1; omega))]
            exact writeChecked_ne _ _ _ _ _ _ (fun hc => haeq hc.1)
      · rw [if_neg (fun hc => hb hc.1), if_neg (fun hc => hb hc.1)]
        exact writeChecked_ne _ _ _ _ _ _ (fun hc => hb hc.2)

/-- Pointwise characterization of the row loop: rows of `rowLen` bytes are
blitted downward from `y` while the destination row is at most `y2`. -/
theorem drawBufRows_spec (rowLen : Nat) (h0 : 0 < rowLen) (h4 : 4 ∣ rowLen) :
    ∀ (n : Nat) (buf : List Nat), buf.length ≤ n → ∀ (fb : Fb) (x1 y y2 : Int),
      4 ∣ buf.length →
    ∃ fb2, drawBufRows fb x1 y y2 rowLen buf = some fb2
      ∧ ∀ a b : Int, fb2 a b =
          if x1 ≤ a ∧ y ≤ b ∧ b ≤ y2 ∧ (a - x1).toNat * 4 + 4 ≤ rowLen
              ∧ (b - y).toNat * rowLen + (a - x1).toNat * 4 + 4 ≤ buf.length
              ∧ inFb a b
          then decodeAt buf ((b - y).toNat * rowLen + (a - x1).toNat * 4)
          else fb a b := by
  intro n
  induction n with
  | zero =>
    intro buf hlen fb x1 y y2 hdvd
    have hbe : buf = [] := List.eq_nil_of_length_eq_zero (by omega)
    subst hbe
    refine ⟨fb, ?_, ?_⟩
    · rw [drawBufRows, dif_neg (by omega), dif_pos rfl]
    · intro a b
      rw [if_neg]
      rintro ⟨-, -, -, -, h5, -⟩
      simp only [List.length_nil] at h5
      omega
  | succ n ih =>
    intro buf hlen fb x1 y y2 hdvd
    by_cases hbe : buf = []
    · subst hbe
      refine ⟨fb, ?_, ?_⟩
      · rw [drawBufRows, dif_neg (by omega), dif_pos rfl]
      · intro a b
        rw [if_neg]
        rintro ⟨-, -, -, -, h5, -⟩
        simp only [List.length_nil] at h5
        omega
    · by_cases hy : y > y2
      · refine ⟨fb, ?_, ?_⟩
        · rw [drawBufRows, dif_neg (by omega), dif_neg hbe, if_pos hy]
        · intro a b
          rw [if_neg]
          rintro ⟨-, h2, h3, -⟩
          omega
      · have hdvd_take : 4 ∣ (buf.take rowLen).length := by
          rw [List.length_take]
          rcases Nat.le_total rowLen buf.length with hc | hc
          · rw [min_eq_left hc]
            exact h4
          · rw [min_eq_right hc]
            exact hdvd
        obtain ⟨fbr, hrow, hrowchar⟩ := drawRowPixels_spec (buf.take rowLen) fb x1 y hdvd_take
        have hpos : 0 < buf.length := List.length_pos.mpr hbe
        have hdroplen : (buf.drop rowLen).length ≤ n := by
          rw [List.length_drop]
          omega
        have hdvd_drop : 4 ∣ (buf.drop rowLen).length := by
          rw [List.length_drop]
          exact Nat.dvd_sub' hdvd h4
        obtain ⟨fb2, hrec, hchar⟩ := ih (buf.drop rowLen) hdroplen fbr x1 (y + 1) y2 hdvd_drop
        refine ⟨fb2, ?_, ?_⟩
        · rw [drawBufRows, dif_neg (by omega), dif_neg hbe, if_neg hy, hrow]
          exact hrec
        · intro a b
          rw [hchar a b]
          have htl : (buf.take rowLen).length = min rowLen buf.length := List.length_take _ _
          have hdl : (buf.drop rowLen).length = buf.length - rowLen := List.length_drop _ _
          by_cases hby : b = y
          · subst hby
            rw [if_neg (fun hc => by have := hc.2.1; omega), hrowchar a b]
            have hz : ((b : Int) - b).toNat = 0 := by omega
            by_cases hcond : x1 ≤ a ∧ (a - x1).toNat * 4 + 4 ≤ rowLen
                ∧ (a - x1).toNat * 4 + 4 ≤ buf.length ∧ inFb a b
            · rw [if_pos ⟨rfl, hcond.1, by rw [htl]; omega, hcond.2.2.2⟩]
              rw [if_pos ⟨hcond.1, le_refl b, by omega, hcond.2.1,
                by rw [hz]; simp only [Nat.zero_mul, Nat.zero_add]; exact hcond.2.2.1,
                hcond.2.2.2⟩]
              rw [hz]
              simp only [Nat.zero_mul, Nat.zero_add]
              exact decodeAt_take buf rowLen _ (by omega)
            · rw [if_neg, if_neg]
              · rintro ⟨k1, -, -, k4, k5, k6⟩
                rw [hz] at k5
                simp only [Nat.zero_mul, Nat.zero_add] at k5
                exact hcond ⟨k1, k4, k5, k6⟩
              · rintro ⟨-, k2, k3, k4⟩
                rw [htl] at k3
                exact hcond ⟨k2, by omega, by omega, k4⟩
          · by_cases hbge : y + 1 ≤ b
            · have hmul : (b - y).toNat * rowLen = (b - (y + 1)).toNat * rowLen + rowLen := by
                have hstep : (b - y).toNat = (b - (y + 1)).toNat + 1 := by omega
                rw [hstep, Nat.succ_mul]
              by_cases hcond : x1 ≤ a ∧ b ≤ y2 ∧ (a - x1).toNat * 4 + 4 ≤ rowLen
                  ∧ (b - (y + 1)).toNat * rowLen + (a - x1).toNat * 4 + 4
                      ≤ (buf.drop rowLen).length
                  ∧ inFb a b
              · have hlen2 : (b - y).toNat * rowLen + (a - x1).toNat * 4 + 4
                    ≤ buf.length := by
                  have := hcond.2.2.2.1
                  rw [hdl] at this
                  omega
                rw [if_pos ⟨hcond.1, hbge, hcond.2.1, hcond.2.2.1, hcond.2.2.2.1,
                  hcond.2.2.2.2⟩]
                rw [if_pos ⟨hcond.1, by omega, hcond.2.1, hcond.2.2.1, hlen2,
                  hcond.2.2.2.2⟩]
                rw [decodeAt_drop]
                have harith : rowLen + ((b - (y + 1)).toNat * rowLen + (a - x1).toNat * 4)
                    = (b - y).toNat * rowLen + (a - x1).toNat * 4 := by omega
                rw [harith]
              · rw [if_neg, if_neg]
                · rw [hrowchar a b, if_neg (fun hc => hby hc.1)]
                · rintro ⟨k1, -, k3, k4, k5, k6⟩
                  exact hcond ⟨k1, k3, k4, by rw [hdl]; omega, k6⟩
                · rintro ⟨k1, -, k3, k4, k5, k6⟩
                  exact hcond ⟨k1, k3, k4, by rw [hdl]; omega, k6⟩
            · rw [if_neg (fun hc => hbge hc.2.1), hrowchar a b,
                if_neg (fun hc => hby hc.1), if_neg (fun hc => by have := hc.2.1; omega)]

/-- C8: `draw_buffer` segments the buffer into rows of `stride * 4` bytes,
decodes each 4-byte pixel little-endian, and writes source row `j`, pixel
`i` to destination `(x1 + i, y1 + j)` iff that destination lies inside
`[0,480) × [0,272)`; rows whose destination `y` exceeds `y2` are ignored,
while pixels past `x2` within a processed row are still written (the
condition nowhere mentions `x2`).  The hypotheses record a positive,
non-wrapping stride and a buffer of whole pixels (as the `vexDisplayCopyRect`
shim always passes). -/
theorem draw_buffer_blit (fb : Fb) (buf : List Nat) (x1 y1 x2 y2 : Int) (stride : Nat)
    (hs : 0 < stride) (hw : stride * 4 < 4294967296) (hdvd : 4 ∣ buf.length) :
    ∃ fb2, drawBufferFb fb buf (x1, y1) (x2, y2) stride = some fb2
      ∧ ∀ a b : Int, fb2 a b =
          if x1 ≤ a ∧ y1 ≤ b ∧ b ≤ y2 ∧ (a - x1).toNat < stride
              ∧ (b - y1).toNat * (stride * 4) + (a - x1).toNat * 4 + 4 ≤ buf.length
              ∧ inFb a b
          then decodeAt buf ((b - y1).toNat * (stride * 4) + (a - x1).toNat * 4)
          else fb a b := by
  have hmod : stride * 4 % 4294967296 = stride * 4 := Nat.mod_eq_of_lt hw
  obtain ⟨fb2, hrun, hchar⟩ := drawBufRows_spec (stride * 4) (by omega)
    ⟨stride, by ring⟩ buf.length buf le_rfl fb x1 y1 y2 hdvd
  refine ⟨fb2, ?_, ?_⟩
  · unfold drawBufferFb
    rw [hmod]
    exact hrun
  · intro a b
    rw [hchar a b]
    have hiff : (x1 ≤ a ∧ y1 ≤ b ∧ b ≤ y2 ∧ (a - x1).toNat * 4 + 4 ≤ stride * 4
        ∧ (b - y1).toNat * (stride * 4) + (a - x1).toNat * 4 + 4 ≤ buf.length
        ∧ inFb a b)
        ↔ (x1 ≤ a ∧ y1 ≤ b ∧ b ≤ y2 ∧ (a - x1).toNat < stride
        ∧ (b - y1).toNat * (stride * 4) + (a - x1).toNat * 4 + 4 ≤ buf.length
        ∧ inFb a b) := by
      constructor <;> rintro ⟨k1, k2, k3, k4, k5, k6⟩ <;>
        exact ⟨k1, k2, k3, by omega, k5, k6⟩
    rw [if_congr hiff rfl rfl]

/-- A two-entry builder fixture: the two color-setter SDK addresses mapped
to abstract host-function handles. -/
def api0 : List (Nat × Nat) := [(0x640, 100), (0x644, 101)]

/-- A fresh guest fixture: empty indirect table, zeroed memory. -/
def g0 : GuestStore := ⟨[], fun _ => 0⟩

/-- Witness for C1 at a concrete builder and guest: the first entry's
function lands in slot 0 and the second entry's slot index 1 is written at
its jump-table address. -/
theorem jump_table_expose_install_witness :
    (JumpTable.expose api0 g0).table.getD 0 none = some 100
    ∧ (JumpTable.expose api0 g0).memory (JUMP_TABLE_START + 0x644 + 0) = 1 := by
  have h := jump_table_expose_install api0 g0
    (by simp [api0, List.pairwise_cons])
  constructor
  · have h2 := h.2.1 0 (by simp [api0])
    simpa [g0, api0] using h2
  · have h3 := h.2.2.1 1 0 (by simp [api0]) (by omega)
    simpa [g0, api0] using h3

/-- A concrete all-black framebuffer fixture. -/
def fb0 : Fb := fun _ _ => BLACK

/-- Witness for C8 at a one-pixel buffer blitted to the origin. -/
theorem draw_buffer_blit_witness :
    ∃ fb2, drawBufferFb fb0 [1, 2, 3, 4] (0, 0) (10, 10) 1 = some fb2
      ∧ fb2 0 0 = RGB.unpack (le32 1 2 3 4) := by
  obtain ⟨fb2, hrun, hchar⟩ := draw_buffer_blit fb0 [1, 2, 3, 4] 0 0 10 10 1
    (by decide) (by decide) (by decide)
  refine ⟨fb2, hrun, ?_⟩
  rw [hchar 0 0, if_pos (by decide)]
  decide

end VexSim
